import Mathlib

set_option maxRecDepth 2000

/-!
Shallow embedding of the `huby` crate (files `src/human.rs` and
`src/human/standard.rs`) and proofs about it.

Machine integers: `u64` is modelled as `Nat` together with explicit
reduction `% 2 ^ 64` exactly where the Rust code performs a wrapping
`u64` operation (release-profile semantics of `+`, `-`, `*`).

Floating point: `f64` is modelled by the type `F64` below, an exact
fraction together with the special values `inf`, `neginf` and `nan`.
All `f64` operations the crate performs after a literal is obtained
(multiplication by a power of two, `round`, `as u64`, division by a
power of two for display) are exact on IEEE doubles in the ranges
exercised here, so the rational model coincides with the IEEE
computation there; the rounding of a decimal literal to its nearest
double is idealised as the exact rational value of the literal.
-/

namespace Huby

/-- Constant `KB` from `human.rs`: `1 << 10`. -/
def KB : Nat := 2 ^ 10

/-- Constant `MB` from `human.rs`: `1 << 20`. -/
def MB : Nat := 2 ^ 20

/-- Constant `GB` from `human.rs`: `1 << 30`. -/
def GB : Nat := 2 ^ 30

/-- Constant `TB` from `human.rs`: `1 << 40`. -/
def TB : Nat := 2 ^ 40

/-- Modulus of the `u64` machine-integer type. -/
def U64MOD : Nat := 2 ^ 64

/-- `enum Unit` from `human.rs`. -/
inductive Unit where
  | bytes
  | kilo
  | mega
  | giga
  | tera
deriving DecidableEq, Repr

/-- `enum Size` from `human.rs`: each variant carries a value expressed
in bytes (a `u64`). -/
inductive Size where
  | bytes (b : Nat)
  | kilo (b : Nat)
  | mega (b : Nat)
  | giga (b : Nat)
  | tera (b : Nat)
deriving DecidableEq, Repr

/-- `impl From<Size> for Unit` from `human.rs`. -/
def Size.unit : Size → Unit
  | .bytes _ => .bytes
  | .kilo _ => .kilo
  | .mega _ => .mega
  | .giga _ => .giga
  | .tera _ => .tera

/-- `struct ByteSize(Size)` from `human.rs`. -/
structure ByteSize where
  size : Size
deriving DecidableEq, Repr

/-- `ByteSize::in_bytes` from `human.rs`. -/
def ByteSize.inBytes (x : ByteSize) : Nat :=
  match x.size with
  | .bytes b => b
  | .kilo b => b
  | .mega b => b
  | .giga b => b
  | .tera b => b

/-- `ByteSize::from_bytes` from `human.rs`. -/
def ByteSize.fromBytes (b : Nat) : ByteSize :=
  if b < KB then ⟨.bytes b⟩
  else if b < MB then ⟨.kilo b⟩
  else if b < GB then ⟨.mega b⟩
  else if b < TB then ⟨.giga b⟩
  else ⟨.tera b⟩

/-- `ByteSize::unit` from `human.rs`. -/
def ByteSize.unit (x : ByteSize) : Unit := x.size.unit

/-- `ByteSize::from_bits_uncheked` from `human.rs` (the typo is the
source's): integer division of the bit count by 8. -/
def ByteSize.fromBitsUncheked (b : Nat) : ByteSize := .fromBytes (b / 8)

/-- `ByteSize::from_kb` from `human.rs`: `kb * KB` is a wrapping `u64`
multiplication, then `from_bytes`. -/
def ByteSize.fromKb (kb : Nat) : ByteSize := .fromBytes (kb * KB % U64MOD)

/-- `ByteSize::from_mb` from `human.rs`. -/
def ByteSize.fromMb (mb : Nat) : ByteSize := .fromBytes (mb * MB % U64MOD)

/-- `ByteSize::from_gb` from `human.rs`. -/
def ByteSize.fromGb (gb : Nat) : ByteSize := .fromBytes (gb * GB % U64MOD)

/-- `ByteSize::from_tb` from `human.rs`. -/
def ByteSize.fromTb (tb : Nat) : ByteSize := .fromBytes (tb * TB % U64MOD)

/-- `ByteSize::into_bytes` from `human.rs`: retag, keep the magnitude. -/
def ByteSize.intoBytes (x : ByteSize) : ByteSize := ⟨.bytes x.inBytes⟩

/-- `ByteSize::into_kb` from `human.rs`. -/
def ByteSize.intoKb (x : ByteSize) : ByteSize := ⟨.kilo x.inBytes⟩

/-- `ByteSize::into_mb` from `human.rs`. -/
def ByteSize.intoMb (x : ByteSize) : ByteSize := ⟨.mega x.inBytes⟩

/-- `ByteSize::into_gb` from `human.rs`. -/
def ByteSize.intoGb (x : ByteSize) : ByteSize := ⟨.giga x.inBytes⟩

/-- `ByteSize::into_tb` from `human.rs`. -/
def ByteSize.intoTb (x : ByteSize) : ByteSize := ⟨.tera x.inBytes⟩

/-- `ByteSize::normalize` from `human.rs`: `from_bytes(in_bytes())`. -/
def ByteSize.normalize (x : ByteSize) : ByteSize := .fromBytes x.inBytes

/-- `impl Add for ByteSize` from `human.rs`: add the raw byte counts
(wrapping `u64` addition) and rebuild through `from_bytes`. -/
def ByteSize.add (a b : ByteSize) : ByteSize :=
  .fromBytes ((a.inBytes + b.inBytes) % U64MOD)

/-- `impl Sub for ByteSize` from `human.rs`: subtract the raw byte
counts (wrapping `u64` subtraction) and rebuild through `from_bytes`. -/
def ByteSize.sub (a b : ByteSize) : ByteSize :=
  .fromBytes ((a.inBytes + (U64MOD - b.inBytes % U64MOD)) % U64MOD)

/-- `impl AddAssign for ByteSize` from `human.rs`: the new value stored
into the left operand. -/
def ByteSize.addAssign (a b : ByteSize) : ByteSize :=
  .fromBytes ((a.inBytes + b.inBytes) % U64MOD)

/-- `impl SubAssign for ByteSize` from `human.rs`: the new value stored
into the left operand. -/
def ByteSize.subAssign (a b : ByteSize) : ByteSize :=
  .fromBytes ((a.inBytes + (U64MOD - b.inBytes % U64MOD)) % U64MOD)

/-- `impl PartialEq for ByteSize` from `human.rs`: equality of the raw
byte counts only. -/
def ByteSize.beq (a b : ByteSize) : Bool := a.inBytes == b.inBytes

/-- `impl PartialOrd for ByteSize` from `human.rs`:
`Some(self.in_bytes().cmp(&other.in_bytes()))`. -/
def ByteSize.partialCmp (a b : ByteSize) : Option Ordering :=
  some (compare a.inBytes b.inBytes)

/-- `impl Hash for ByteSize` from `human/standard.rs`: the
implementation forwards exactly `self.in_bytes()` to the hasher state;
the hasher itself is abstracted as a state-update function `h`. -/
def ByteSize.hashWith {σ : Type} (h : Nat → σ → σ) (x : ByteSize) (st : σ) : σ :=
  h x.inBytes st

/-- Exact fraction with a positive denominator, used to model real
(and in-range `f64`) arithmetic exactly. Fractions are not reduced, so
every operation is structural and machine-checkable by evaluation; all
operations below assume and preserve a positive denominator. -/
structure Q where
  num : Int
  den : Nat
deriving DecidableEq, Repr

/-- Embed a natural number as a fraction. -/
def Q.ofNat (n : Nat) : Q := ⟨n, 1⟩

/-- Embed an integer as a fraction. -/
def Q.ofInt (n : Int) : Q := ⟨n, 1⟩

/-- The fraction one (the float literal `1.0`). -/
def Q.one : Q := ⟨1, 1⟩

instance : LT Q := ⟨fun a b => a.num * (b.den : Int) < b.num * (a.den : Int)⟩

instance : LE Q := ⟨fun a b => a.num * (b.den : Int) ≤ b.num * (a.den : Int)⟩

instance (a b : Q) : Decidable (a < b) := Int.decLt _ _

instance (a b : Q) : Decidable (a ≤ b) := Int.decLe _ _

/-- Fraction addition. -/
def Q.add (a b : Q) : Q := ⟨a.num * b.den + b.num * a.den, a.den * b.den⟩

/-- Fraction negation. -/
def Q.neg (a : Q) : Q := ⟨-a.num, a.den⟩

/-- Fraction subtraction. -/
def Q.sub (a b : Q) : Q := a.add b.neg

/-- Fraction multiplication. -/
def Q.mul (a b : Q) : Q := ⟨a.num * b.num, a.den * b.den⟩

/-- Fraction reciprocal (unused on zero). -/
def Q.recip (a : Q) : Q :=
  if a.num < 0 then ⟨-(a.den : Int), (-a.num).toNat⟩ else ⟨(a.den : Int), a.num.toNat⟩

/-- Fraction division. -/
def Q.div (a b : Q) : Q := a.mul b.recip

/-- The fraction `10 ^ k`. -/
def Q.pow10 (k : Nat) : Q := ⟨(10 : Int) ^ k, 1⟩

/-- Model of an `f64` value: an exact fraction for finite doubles, plus
the special values. The rounding of a finite value to 53 significant
bits is not modelled; see the header comment. -/
inductive F64 where
  | finite (q : Q)
  | inf
  | neginf
  | nan
deriving DecidableEq, Repr

/-- Smallest magnitude at which IEEE round-to-nearest sends a real
number to the double infinity: `2 ^ 1024 - 2 ^ 970`, written as an
explicit literal so that evaluation does not recurse. -/
def f64Huge : Q :=
  ⟨179769313486231580793728971405303415079934132710037826936173778980444968292764750946649017977587207096330286416692887910946555547851940402630657488671505820681908902000708383676273854845817711531764475730270069855571366959622842914819860834936475292719074168444365510704342711559699508093042880177904174497792, 1⟩

/-- Floor of a fraction, computed with floored integer division. -/
def rfloor (q : Q) : ℤ := Int.fdiv q.num q.den

/-- `f64::round` semantics: round half away from zero. -/
def roundHalfAway (q : Q) : ℤ :=
  if Q.ofNat 0 ≤ q then rfloor (q.add ⟨1, 2⟩) else -rfloor ((Q.mk 1 2).sub q)

/-- Multiplication of an `f64` by a positive power of two (the unit
constants): exact on doubles except for overflow to infinity. -/
def F64.mulConst : F64 → Q → F64
  | .finite q, c =>
    if f64Huge ≤ q.mul c then .inf
    else if q.mul c ≤ f64Huge.neg then .neginf
    else .finite (q.mul c)
  | .inf, _ => .inf
  | .neginf, _ => .neginf
  | .nan, _ => .nan

/-- `x.round() as u64` on an `f64`: round half away from zero, then the
saturating float-to-integer cast (`NaN` to 0, negatives to 0, values
above `u64::MAX` to `u64::MAX`). -/
def F64.roundCastU64 : F64 → Nat
  | .nan => 0
  | .neginf => 0
  | .inf => U64MOD - 1
  | .finite q =>
    let r := roundHalfAway q
    if r < 0 then 0 else min r.toNat (U64MOD - 1)

/-- `ByteSize::from_kb_f64` from `human.rs`:
`from_bytes((kb * KB as f64).round() as u64)`. -/
def ByteSize.fromKbF64 (kb : F64) : ByteSize :=
  .fromBytes ((kb.mulConst (Q.ofNat KB)).roundCastU64)

/-- `ByteSize::from_mb_f64` from `human.rs`. -/
def ByteSize.fromMbF64 (mb : F64) : ByteSize :=
  .fromBytes ((mb.mulConst (Q.ofNat MB)).roundCastU64)

/-- `ByteSize::from_gb_f64` from `human.rs`. -/
def ByteSize.fromGbF64 (gb : F64) : ByteSize :=
  .fromBytes ((gb.mulConst (Q.ofNat GB)).roundCastU64)

/-- `ByteSize::from_tb_f64` from `human.rs`. -/
def ByteSize.fromTbF64 (tb : F64) : ByteSize :=
  .fromBytes ((tb.mulConst (Q.ofNat TB)).roundCastU64)

/-- `ByteSize::divisor` from `human.rs`, as an exact rational. -/
def ByteSize.divisor (x : ByteSize) : Q :=
  match x.size with
  | .bytes _ => Q.ofNat 1
  | .kilo _ => Q.ofNat KB
  | .mega _ => Q.ofNat MB
  | .giga _ => Q.ofNat GB
  | .tera _ => Q.ofNat TB

/-- `ByteSize::in_unit` from `human.rs`:
`in_bytes() as f64 / divisor()`, as an exact rational. -/
def ByteSize.inUnit (x : ByteSize) : Q := (Q.ofNat x.inBytes).div x.divisor

/-- `ByteSize::unit_str` from `human.rs`. -/
def ByteSize.unitStr (x : ByteSize) : String :=
  match x.size with
  | .bytes _ => "B"
  | .kilo _ => "KB"
  | .mega _ => "MB"
  | .giga _ => "GB"
  | .tera _ => "TB"

/-- List-level model of Rust `str::ends_with`. -/
def endsWithL (pat s : List Char) : Bool := pat.isSuffixOf s

/-- Fuel-indexed worker for `trimEndMatchesL`; the fuel only bounds the
recursion depth and `s.length` is always enough. -/
def trimEndAux (pat : List Char) (fuel : Nat) (s : List Char) : List Char :=
  match fuel with
  | 0 => s
  | fuel + 1 =>
    if pat ≠ [] ∧ pat.isSuffixOf s then
      trimEndAux pat fuel (s.take (s.length - pat.length))
    else s

/-- Model of Rust `str::trim_end_matches`: repeatedly removes the
pattern from the end, so every trailing occurrence is stripped. A
single-character Rust pattern such as `'B'` is the one-element list. -/
def trimEndMatchesL (pat s : List Char) : List Char := trimEndAux pat s.length s

/-- Model of Rust `str::trim`: drop whitespace from both ends. -/
def trimL (s : List Char) : List Char :=
  ((s.dropWhile Char.isWhitespace).reverse.dropWhile Char.isWhitespace).reverse

/-- Numeric value of a list of ASCII digits, most significant first
(48 is the code of the digit zero). -/
def natOfDigits (ds : List Char) : Nat :=
  ds.foldl (fun a c => a * 10 + (c.toNat - 48)) 0

/-- Model of Rust `u64::from_str`: an optional leading plus sign, then
one or more ASCII digits; overflow beyond `u64::MAX` is an error. -/
def parseU64L (s : List Char) : Option Nat :=
  let t := match s with
    | '+' :: r => r
    | r => r
  if t.isEmpty then none
  else if t.all Char.isDigit then
    if natOfDigits t < U64MOD then some (natOfDigits t) else none
  else none

/-- Optional-exponent tail of the Rust `f64` grammar: the end of the
input, or `e`/`E`, an optional sign and one or more digits. -/
def parseExpTail (m : Q) (r : List Char) : Option Q :=
  match r with
  | [] => some m
  | c :: r2 =>
    if c = 'e' ∨ c = 'E' then
      let pos : Bool := match r2 with
        | '-' :: _ => false
        | _ => true
      let r3 : List Char := match r2 with
        | '+' :: rr => rr
        | '-' :: rr => rr
        | rr => rr
      let ed := r3.takeWhile Char.isDigit
      let r4 := r3.dropWhile Char.isDigit
      if ed.isEmpty then none
      else if r4.isEmpty then
        some (if pos then m.mul (Q.pow10 (natOfDigits ed))
          else m.div (Q.pow10 (natOfDigits ed)))
      else none
    else none

/-- Number part of the Rust `f64` grammar: `digits`, `digits.digits`,
`digits.` or `.digits`, then the optional exponent. -/
def parseDecNumber (s : List Char) : Option Q :=
  let ip := s.takeWhile Char.isDigit
  let r1 := s.dropWhile Char.isDigit
  match r1 with
  | '.' :: r2 =>
    let fp := r2.takeWhile Char.isDigit
    let r3 := r2.dropWhile Char.isDigit
    if ip.isEmpty && fp.isEmpty then none
    else parseExpTail ((Q.ofNat (natOfDigits ip)).add
      ((Q.ofNat (natOfDigits fp)).div (Q.pow10 fp.length))) r3
  | _ => if ip.isEmpty then none else parseExpTail (Q.ofNat (natOfDigits ip)) r1

/-- Case folding used by the special `f64` values. -/
def lowerEqL (s t : List Char) : Bool := s.map Char.toLower == t

/-- Model of Rust `f64::from_str` over the documented grammar: an
optional sign, then `inf`, `infinity` or `nan` (case-insensitive) or a
decimal number; finite values beyond the IEEE overflow threshold round
to the infinities. -/
def parseF64L (s : List Char) : Option F64 :=
  match s with
  | [] => none
  | _ =>
    let neg : Bool := match s with
      | '-' :: _ => true
      | _ => false
    let rest : List Char := match s with
      | '+' :: r => r
      | '-' :: r => r
      | r => r
    if lowerEqL rest ['i', 'n', 'f'] ||
        lowerEqL rest ['i', 'n', 'f', 'i', 'n', 'i', 't', 'y'] then
      some (if neg then .neginf else .inf)
    else if lowerEqL rest ['n', 'a', 'n'] then some .nan
    else
      match parseDecNumber rest with
      | none => none
      | some q =>
        let v : Q := if neg then q.neg else q
        if f64Huge ≤ v then some .inf
        else if v ≤ f64Huge.neg then some .neginf
        else some (.finite v)

/-- `enum ParseError` from `human/standard.rs`; the wrapped standard
library error values (`ParseIntError`, `ParseFloatError`) are not
modelled, only which variant occurs. -/
inductive ParseError where
  | UnkUnit (s : String)
  | ParseInt
  | ParseFloat
deriving DecidableEq, Repr

deriving instance DecidableEq for Except

/-- Body of `impl FromStr for ByteSize` from `human/standard.rs`,
parameterised by the original string (kept only for the `UnkUnit`
error) and its character list. -/
def fromStrAux (orig : String) (cs : List Char) : Except ParseError ByteSize :=
  if endsWithL ['K', 'B'] cs then
    match parseF64L (trimL (trimEndMatchesL ['K', 'B'] cs)) with
    | some x => .ok (ByteSize.fromKbF64 x)
    | none => .error .ParseFloat
  else if endsWithL ['M', 'B'] cs then
    match parseF64L (trimL (trimEndMatchesL ['M', 'B'] cs)) with
    | some x => .ok (ByteSize.fromMbF64 x)
    | none => .error .ParseFloat
  else if endsWithL ['G', 'B'] cs then
    match parseF64L (trimL (trimEndMatchesL ['G', 'B'] cs)) with
    | some x => .ok (ByteSize.fromGbF64 x)
    | none => .error .ParseFloat
  else if endsWithL ['B'] cs then
    match parseU64L (trimL (trimEndMatchesL ['B'] cs)) with
    | some n => .ok (ByteSize.fromBytes n)
    | none => .error .ParseInt
  else .error (.UnkUnit orig)

/-- `impl FromStr for ByteSize` from `human/standard.rs`: suffixes are
tested in the order `KB`, `MB`, `GB`, bare `B`; every trailing
occurrence of the matched suffix is stripped, the rest is trimmed and
parsed, and parse failures map to the matching `ParseError` variant. -/
def ByteSize.fromStr (s : String) : Except ParseError ByteSize := fromStrAux s s.data

/-- Round to the nearest integer, ties to even: the rounding Rust's
fixed-precision formatting applies to the (here exact) value. -/
def roundHalfEven (q : Q) : ℤ :=
  let f := rfloor q
  let r := q.sub (Q.ofInt f)
  if r < Q.mk 1 2 then f
  else if Q.mk 1 2 < r then f + 1
  else if f % 2 = 0 then f else f + 1

/-- Left-pad a digit string with zeros to the given width. -/
def padZeros (w : Nat) (s : String) : String :=
  String.mk (List.replicate (w - s.length) '0') ++ s

/-- Rust fixed-point formatting `{:.prec$}` of a nonnegative value. -/
def fmtFixed (prec : Nat) (q : Q) : String :=
  let n := (roundHalfEven (q.mul (Q.pow10 prec))).toNat
  let ip := n / 10 ^ prec
  let fp := n % 10 ^ prec
  if prec = 0 then Nat.repr ip
  else Nat.repr ip ++ "." ++ padZeros prec (Nat.repr fp)

/-- `impl Display for ByteSize` from `human/standard.rs`: normalize
when the value expressed in its own unit falls below `1.0`, then render
with one decimal digit and the unit suffix. -/
def ByteSize.displayStr (x : ByteSize) : String :=
  let bs := if x.inUnit < Q.one then x.normalize else x
  fmtFixed 1 bs.inUnit ++ bs.unitStr

/-- `ByteSize::to_string_with_prec` from `human/standard.rs`: the same
normalization rule, rendering at the requested precision, then
stripping trailing zeros and a trailing decimal point. -/
def ByteSize.toStringWithPrec (x : ByteSize) (prec : Nat) : String :=
  let bs := if x.inUnit < Q.one then x.normalize else x
  let s := fmtFixed prec bs.inUnit
  String.mk (trimEndMatchesL ['.'] (trimEndMatchesL ['0'] s.data)) ++ bs.unitStr

/-- Concatenation of `k` copies of a character list. -/
def repL (p : List Char) (k : Nat) : List Char :=
  match k with
  | 0 => []
  | k + 1 => repL p k ++ p

theorem inBytes_fromBytes (b : Nat) : (ByteSize.fromBytes b).inBytes = b := by
  unfold ByteSize.fromBytes
  by_cases h1 : b < KB <;> by_cases h2 : b < MB <;> by_cases h3 : b < GB <;>
    by_cases h4 : b < TB <;> simp [h1, h2, h3, h4, ByteSize.inBytes]

theorem unit_fromBytes (n : Nat) :
    (ByteSize.fromBytes n).unit =
      (if n < KB then Unit.bytes else if n < MB then Unit.kilo
       else if n < GB then Unit.mega else if n < TB then Unit.giga else Unit.tera) := by
  unfold ByteSize.fromBytes ByteSize.unit
  by_cases h1 : n < KB <;> by_cases h2 : n < MB <;> by_cases h3 : n < GB <;>
    by_cases h4 : n < TB <;> simp [h1, h2, h3, h4, Size.unit]

/-- C1: `from_bytes(n)` keeps the byte count `n` unchanged and assigns
the best-fit unit tag by half-open bounds: Bytes on `[0, KB)`, Kilo on
`[KB, MB)`, Mega on `[MB, GB)`, Giga on `[GB, TB)`, Tera on `[TB, ∞)`. -/
theorem fromBytes_classification (n : Nat) (hn : n < U64MOD) :
    (ByteSize.fromBytes n).inBytes = n
    ∧ ((ByteSize.fromBytes n).unit = .bytes ↔ n < KB)
    ∧ ((ByteSize.fromBytes n).unit = .kilo ↔ KB ≤ n ∧ n < MB)
    ∧ ((ByteSize.fromBytes n).unit = .mega ↔ MB ≤ n ∧ n < GB)
    ∧ ((ByteSize.fromBytes n).unit = .giga ↔ GB ≤ n ∧ n < TB)
    ∧ ((ByteSize.fromBytes n).unit = .tera ↔ TB ≤ n) := by
  have e1 : KB = 1024 := by decide
  have e2 : MB = 1048576 := by decide
  have e3 : GB = 1073741824 := by decide
  have e4 : TB = 1099511627776 := by decide
  have huf := unit_fromBytes n
  by_cases h1 : n < KB
  · rw [if_pos h1] at huf
    refine ⟨inBytes_fromBytes n, ?_, ?_, ?_, ?_, ?_⟩ <;> rw [huf] <;> simp <;> omega
  rw [if_neg h1] at huf
  by_cases h2 : n < MB
  · rw [if_pos h2] at huf
    refine ⟨inBytes_fromBytes n, ?_, ?_, ?_, ?_, ?_⟩ <;> rw [huf] <;> simp <;> omega
  rw [if_neg h2] at huf
  by_cases h3 : n < GB
  · rw [if_pos h3] at huf
    refine ⟨inBytes_fromBytes n, ?_, ?_, ?_, ?_, ?_⟩ <;> rw [huf] <;> simp <;> omega
  rw [if_neg h3] at huf
  by_cases h4 : n < TB
  · rw [if_pos h4] at huf
    refine ⟨inBytes_fromBytes n, ?_, ?_, ?_, ?_, ?_⟩ <;> rw [huf] <;> simp <;> omega
  rw [if_neg h4] at huf
  refine ⟨inBytes_fromBytes n, ?_, ?_, ?_, ?_, ?_⟩ <;> rw [huf] <;> simp <;> omega

/-- Witness for C1 at `n = 2048`. -/
theorem fromBytes_classification_witness :
    (ByteSize.fromBytes 2048).inBytes = 2048
    ∧ ((ByteSize.fromBytes 2048).unit = .bytes ↔ 2048 < KB)
    ∧ ((ByteSize.fromBytes 2048).unit = .kilo ↔ KB ≤ 2048 ∧ 2048 < MB)
    ∧ ((ByteSize.fromBytes 2048).unit = .mega ↔ MB ≤ 2048 ∧ 2048 < GB)
    ∧ ((ByteSize.fromBytes 2048).unit = .giga ↔ GB ≤ 2048 ∧ 2048 < TB)
    ∧ ((ByteSize.fromBytes 2048).unit = .tera ↔ TB ≤ 2048) :=
  fromBytes_classification 2048 (by decide)

/-- C9: `normalize` is idempotent, in both magnitude and unit tag, and
it never changes the stored byte count. -/
theorem normalize_idempotent (x : ByteSize) :
    x.normalize.normalize = x.normalize ∧ x.normalize.inBytes = x.inBytes := by
  unfold ByteSize.normalize
  rw [inBytes_fromBytes]
  exact ⟨rfl, rfl⟩

/-- C3: addition adds the raw byte counts and renormalizes: the sum's
byte count is the sum of the operands' byte counts (here under the
no-overflow hypothesis; the `u64` addition wraps otherwise), its unit
tag is the best-fit tag `from_bytes` assigns to that sum, independently
of the operands' tags, and `add_assign` stores exactly the same value. -/
theorem add_renormalizes (a b : ByteSize) (h : a.inBytes + b.inBytes < U64MOD) :
    (a.add b).inBytes = a.inBytes + b.inBytes
    ∧ (a.add b).unit = (ByteSize.fromBytes (a.inBytes + b.inBytes)).unit
    ∧ a.addAssign b = a.add b := by
  unfold ByteSize.add ByteSize.addAssign
  rw [Nat.mod_eq_of_lt h]
  exact ⟨inBytes_fromBytes _, rfl, rfl⟩

/-- Witness for C3: two values with different tags, `12B + 1GB`. -/
theorem add_renormalizes_witness :
    ((ByteSize.fromBytes 12).add (ByteSize.fromGb 1)).inBytes
        = (ByteSize.fromBytes 12).inBytes + (ByteSize.fromGb 1).inBytes
    ∧ ((ByteSize.fromBytes 12).add (ByteSize.fromGb 1)).unit
        = (ByteSize.fromBytes ((ByteSize.fromBytes 12).inBytes + (ByteSize.fromGb 1).inBytes)).unit
    ∧ (ByteSize.fromBytes 12).addAssign (ByteSize.fromGb 1)
        = (ByteSize.fromBytes 12).add (ByteSize.fromGb 1) :=
  add_renormalizes (ByteSize.fromBytes 12) (ByteSize.fromGb 1) (by decide)

/-- C4: equality, ordering and hashing are determined purely by the
byte count: `eq` is byte-count equality, `partial_cmp` is always `Some`
of the byte-count comparison, equal byte counts feed the same data to
any hasher, and `from_kb(1024) == from_mb(1)` with equal comparison. -/
theorem eq_ord_hash_by_bytes (a b : ByteSize) :
    (a.beq b = true ↔ a.inBytes = b.inBytes)
    ∧ a.partialCmp b = some (compare a.inBytes b.inBytes)
    ∧ (a.inBytes = b.inBytes → ∀ (σ : Type) (h : Nat → σ → σ) (st : σ),
        a.hashWith h st = b.hashWith h st)
    ∧ (ByteSize.fromKb 1024).beq (ByteSize.fromMb 1) = true
    ∧ (ByteSize.fromKb 1024).partialCmp (ByteSize.fromMb 1) = some Ordering.eq := by
  refine ⟨by simp [ByteSize.beq], rfl, ?_, by decide, by decide⟩
  intro hab σ h st
  unfold ByteSize.hashWith
  rw [hab]

/-- Witness for C4: the hash clause at `from_kb(1024)` and `from_mb(1)`
with a concrete hasher. -/
theorem eq_ord_hash_by_bytes_witness :
    (ByteSize.fromKb 1024).hashWith (fun n s => n + s) 0
      = (ByteSize.fromMb 1).hashWith (fun n s => n + s) 0 :=
  (eq_ord_hash_by_bytes (ByteSize.fromKb 1024) (ByteSize.fromMb 1)).2.2.1
    (by decide) Nat (fun n s => n + s) 0

theorem roundCastU64_lt (x : F64) : x.roundCastU64 < U64MOD := by
  have hpos : 0 < U64MOD := by decide
  cases x <;> simp only [F64.roundCastU64] <;> try omega
  split <;> omega

/-- C6: no numeric constructor has an error path: each is a total
function into `ByteSize`. The integer constructors yield exactly the
product with the unit constant whenever it is representable in `u64`
(and the wrapped product otherwise), and every `f64` constructor yields
a valid `u64` byte count for every input, including `inf` and `NaN`. -/
theorem constructors_total (n : Nat) (hn : n < U64MOD) :
    (ByteSize.fromBytes n).inBytes = n
    ∧ (ByteSize.fromKb n).inBytes = n * KB % U64MOD
    ∧ (ByteSize.fromMb n).inBytes = n * MB % U64MOD
    ∧ (ByteSize.fromGb n).inBytes = n * GB % U64MOD
    ∧ (ByteSize.fromTb n).inBytes = n * TB % U64MOD
    ∧ (n * TB < U64MOD →
        (ByteSize.fromKb n).inBytes = n * KB
        ∧ (ByteSize.fromMb n).inBytes = n * MB
        ∧ (ByteSize.fromGb n).inBytes = n * GB
        ∧ (ByteSize.fromTb n).inBytes = n * TB)
    ∧ (∀ x : F64,
        (ByteSize.fromKbF64 x).inBytes < U64MOD
        ∧ (ByteSize.fromMbF64 x).inBytes < U64MOD
        ∧ (ByteSize.fromGbF64 x).inBytes < U64MOD
        ∧ (ByteSize.fromTbF64 x).inBytes < U64MOD) := by
  have e1 : KB = 1024 := by decide
  have e2 : MB = 1048576 := by decide
  have e3 : GB = 1073741824 := by decide
  have e4 : TB = 1099511627776 := by decide
  refine ⟨inBytes_fromBytes n, ?_, ?_, ?_, ?_, ?_, ?_⟩
  · exact inBytes_fromBytes _
  · exact inBytes_fromBytes _
  · exact inBytes_fromBytes _
  · exact inBytes_fromBytes _
  · intro hrep
    unfold ByteSize.fromKb ByteSize.fromMb ByteSize.fromGb ByteSize.fromTb
    rw [e1, e2, e3, e4] at *
    rw [Nat.mod_eq_of_lt (by omega), Nat.mod_eq_of_lt (by omega),
      Nat.mod_eq_of_lt (by omega), Nat.mod_eq_of_lt (by omega)]
    exact ⟨inBytes_fromBytes _, inBytes_fromBytes _, inBytes_fromBytes _, inBytes_fromBytes _⟩
  · intro x
    unfold ByteSize.fromKbF64 ByteSize.fromMbF64 ByteSize.fromGbF64 ByteSize.fromTbF64
    rw [inBytes_fromBytes, inBytes_fromBytes, inBytes_fromBytes, inBytes_fromBytes]
    exact ⟨roundCastU64_lt _, roundCastU64_lt _, roundCastU64_lt _, roundCastU64_lt _⟩

/-- Witness for C6 at `n = 3`, exercising the representable-magnitude
clause for all four integer constructors. -/
theorem constructors_total_witness :
    (ByteSize.fromKb 3).inBytes = 3 * KB
    ∧ (ByteSize.fromMb 3).inBytes = 3 * MB
    ∧ (ByteSize.fromGb 3).inBytes = 3 * GB
    ∧ (ByteSize.fromTb 3).inBytes = 3 * TB :=
  (constructors_total 3 (by decide)).2.2.2.2.2.1 (by decide)

/-- C7: when the right byte count does not exceed the left one,
subtraction yields exactly the difference of the byte counts, carries
the best-fit tag for that difference, and `sub_assign` stores the same
value; when it does exceed it, there is no recoverable error: the `u64`
subtraction wraps modulo `2 ^ 64` (release profile; the debug profile
aborts), producing `2 ^ 64 - (b - a)`. -/
theorem sub_renormalizes (a b : ByteSize) (ha : a.inBytes < U64MOD) (hb : b.inBytes < U64MOD) :
    (b.inBytes ≤ a.inBytes →
      (a.sub b).inBytes = a.inBytes - b.inBytes
      ∧ (a.sub b).unit = (ByteSize.fromBytes (a.inBytes - b.inBytes)).unit
      ∧ a.subAssign b = a.sub b)
    ∧ (a.inBytes < b.inBytes →
      (a.sub b).inBytes = U64MOD - (b.inBytes - a.inBytes)) := by
  unfold ByteSize.sub ByteSize.subAssign
  rw [Nat.mod_eq_of_lt hb]
  constructor
  · intro hle
    have harg : a.inBytes + (U64MOD - b.inBytes) = (a.inBytes - b.inBytes) + U64MOD := by
      omega
    rw [harg, Nat.add_mod_right, Nat.mod_eq_of_lt (by omega)]
    exact ⟨inBytes_fromBytes _, rfl, rfl⟩
  · intro hlt
    rw [Nat.mod_eq_of_lt (by omega), inBytes_fromBytes]
    omega

/-- Witness for C7: `42B - 12B = 30B`. -/
theorem sub_renormalizes_witness :
    ((ByteSize.fromBytes 42).sub (ByteSize.fromBytes 12)).inBytes
        = (ByteSize.fromBytes 42).inBytes - (ByteSize.fromBytes 12).inBytes
    ∧ ((ByteSize.fromBytes 42).sub (ByteSize.fromBytes 12)).unit
        = (ByteSize.fromBytes
            ((ByteSize.fromBytes 42).inBytes - (ByteSize.fromBytes 12).inBytes)).unit
    ∧ (ByteSize.fromBytes 42).subAssign (ByteSize.fromBytes 12)
        = (ByteSize.fromBytes 42).sub (ByteSize.fromBytes 12) :=
  (sub_renormalizes (ByteSize.fromBytes 42) (ByteSize.fromBytes 12)
    (by decide) (by decide)).1 (by decide)

theorem trimEndAux_nil (p : List Char) (f : Nat) : trimEndAux p f [] = [] := by
  cases f <;> cases p <;> simp [trimEndAux]

theorem trimEndAux_fuel (p : List Char) :
    ∀ (n : Nat) (s : List Char) (f1 f2 : Nat), s.length ≤ n → s.length ≤ f1 → s.length ≤ f2 →
      trimEndAux p f1 s = trimEndAux p f2 s := by
  intro n
  induction n with
  | zero =>
    intro s f1 f2 hn h1 h2
    have hs : s = [] := List.length_eq_zero.mp (Nat.le_zero.mp hn)
    subst hs
    rw [trimEndAux_nil, trimEndAux_nil]
  | succ n ih =>
    intro s f1 f2 hn h1 h2
    match f1, f2 with
    | 0, 0 => rfl
    | 0, f2 + 1 =>
      have hs : s = [] := List.length_eq_zero.mp (Nat.le_zero.mp h1)
      subst hs
      rw [trimEndAux_nil, trimEndAux_nil]
    | f1 + 1, 0 =>
      have hs : s = [] := List.length_eq_zero.mp (Nat.le_zero.mp h2)
      subst hs
      rw [trimEndAux_nil, trimEndAux_nil]
    | f1 + 1, f2 + 1 =>
      show (if p ≠ [] ∧ p.isSuffixOf s then
            trimEndAux p f1 (s.take (s.length - p.length)) else s)
          = (if p ≠ [] ∧ p.isSuffixOf s then
            trimEndAux p f2 (s.take (s.length - p.length)) else s)
      by_cases hc : p ≠ [] ∧ p.isSuffixOf s
      · rw [if_pos hc, if_pos hc]
        have hplen : 1 ≤ p.length := List.length_pos.mpr hc.1
        have hsl : p.length ≤ s.length := (List.isSuffixOf_iff_suffix.mp hc.2).length_le
        have ht : (s.take (s.length - p.length)).length = s.length - p.length := by
          rw [List.length_take]
          omega
        exact ih _ f1 f2 (by omega) (by omega) (by omega)
      · rw [if_neg hc, if_neg hc]

theorem trimEnd_not_suffix (p s : List Char) (h : ¬ p.isSuffixOf s = true) :
    trimEndMatchesL p s = s := by
  cases s with
  | nil => rfl
  | cons a as =>
    show (if p ≠ [] ∧ p.isSuffixOf (a :: as) then
          trimEndAux p as.length ((a :: as).take ((a :: as).length - p.length))
          else (a :: as))
        = (a :: as)
    rw [if_neg (fun hc => h hc.2)]

theorem trimEnd_append (p s : List Char) (hp : p ≠ []) :
    trimEndMatchesL p (s ++ p) = trimEndMatchesL p s := by
  have hsfx : p.isSuffixOf (s ++ p) = true :=
    List.isSuffixOf_iff_suffix.mpr (List.suffix_append s p)
  have hplen : 1 ≤ p.length := List.length_pos.mpr hp
  have hlen : (s ++ p).length = s.length + p.length := List.length_append s p
  obtain ⟨m, hm⟩ : ∃ m, (s ++ p).length = m + 1 := ⟨s.length + (p.length - 1), by omega⟩
  have hmge : s.length ≤ m := by omega
  unfold trimEndMatchesL
  rw [hm]
  show (if p ≠ [] ∧ p.isSuffixOf (s ++ p) then
        trimEndAux p m ((s ++ p).take ((s ++ p).length - p.length)) else s ++ p)
      = trimEndAux p s.length s
  rw [if_pos ⟨hp, hsfx⟩]
  have htake : (s ++ p).take ((s ++ p).length - p.length) = s := by
    rw [hlen, Nat.add_sub_cancel]
    exact List.take_left s p
  rw [htake]
  exact trimEndAux_fuel p s.length s m s.length (Nat.le_refl _) hmge (Nat.le_refl _)

theorem trimEnd_repL (p s : List Char) (k : Nat) (hp : p ≠ []) :
    trimEndMatchesL p (s ++ repL p k) = trimEndMatchesL p s := by
  induction k with
  | zero => simp [repL]
  | succ k ih =>
    have he : s ++ repL p (k + 1) = (s ++ repL p k) ++ p := by
      simp [repL, List.append_assoc]
    rw [he, trimEnd_append p _ hp, ih]

theorem endsWith_append_self (p s : List Char) : endsWithL p (s ++ p) = true := by
  simp only [endsWithL]
  exact List.isSuffixOf_iff_suffix.mpr (List.suffix_append s p)

theorem endsWith_append_repL (p s : List Char) (k : Nat) (hk : 1 ≤ k) :
    endsWithL p (s ++ repL p k) = true := by
  obtain ⟨j, rfl⟩ : ∃ j, k = j + 1 := ⟨k - 1, by omega⟩
  have he : s ++ repL p (j + 1) = (s ++ repL p j) ++ p := by
    simp [repL, List.append_assoc]
  rw [he]
  exact endsWith_append_self p (s ++ repL p j)

theorem suffix_eq_of_length {p q s : List Char} (hp : p <:+ s) (hq : q <:+ s)
    (hl : p.length = q.length) : p = q := by
  obtain ⟨t1, ht1⟩ := hp
  obtain ⟨t2, ht2⟩ := hq
  exact List.append_inj_right' (ht1.trans ht2.symm) hl

theorem not_both_suffix2 {a c b : Char} {s : List Char} (hne : a ≠ c)
    (ha : [a, b] <:+ s) (hc : [c, b] <:+ s) : False := by
  have h := suffix_eq_of_length ha hc rfl
  simp only [List.cons.injEq] at h
  exact hne h.1

theorem not_suffix_of_numeric {p cs : List Char} (hB : 'B' ∈ p)
    (hcs : ∀ c ∈ cs, c.isDigit ∨ c = '.') : ¬ p.isSuffixOf cs = true := by
  intro h
  have hmem : 'B' ∈ cs := (List.isSuffixOf_iff_suffix.mp h).mem hB
  rcases hcs _ hmem with hd | hd
  · exact absurd hd (by decide)
  · exact absurd hd (by decide)

theorem mem_of_suffix2_append {a b : Char} {cs : List Char}
    (h : [a, b] <:+ cs ++ [b]) : a ∈ cs := by
  obtain ⟨t, ht⟩ := h
  have h2 : (t ++ [a]) ++ [b] = cs ++ [b] := by
    simpa [List.append_assoc] using ht
  have h3 : t ++ [a] = cs := List.append_inj_left' h2 rfl
  rw [← h3]
  exact List.mem_append_right t (List.mem_singleton_self a)

theorem not_endsWith_of_not_endsWithB {p cs : List Char} (hBp : ['B'] <:+ p)
    (h : ¬ endsWithL ['B'] cs = true) : ¬ endsWithL p cs = true := by
  intro hp
  exact h (List.isSuffixOf_iff_suffix.mpr (hBp.trans (List.isSuffixOf_iff_suffix.mp hp)))

theorem fromStrAux_kb (orig : String) (cs : List Char)
    (h : endsWithL ['K', 'B'] cs = true) :
    fromStrAux orig cs =
      match parseF64L (trimL (trimEndMatchesL ['K', 'B'] cs)) with
      | some x => .ok (ByteSize.fromKbF64 x)
      | none => .error .ParseFloat := by
  unfold fromStrAux
  rw [if_pos h]

theorem fromStrAux_mb (orig : String) (cs : List Char)
    (hk : ¬ endsWithL ['K', 'B'] cs = true) (h : endsWithL ['M', 'B'] cs = true) :
    fromStrAux orig cs =
      match parseF64L (trimL (trimEndMatchesL ['M', 'B'] cs)) with
      | some x => .ok (ByteSize.fromMbF64 x)
      | none => .error .ParseFloat := by
  unfold fromStrAux
  rw [if_neg hk, if_pos h]

theorem fromStrAux_gb (orig : String) (cs : List Char)
    (hk : ¬ endsWithL ['K', 'B'] cs = true) (hm : ¬ endsWithL ['M', 'B'] cs = true)
    (h : endsWithL ['G', 'B'] cs = true) :
    fromStrAux orig cs =
      match parseF64L (trimL (trimEndMatchesL ['G', 'B'] cs)) with
      | some x => .ok (ByteSize.fromGbF64 x)
      | none => .error .ParseFloat := by
  unfold fromStrAux
  rw [if_neg hk, if_neg hm, if_pos h]

theorem fromStrAux_b (orig : String) (cs : List Char)
    (hk : ¬ endsWithL ['K', 'B'] cs = true) (hm : ¬ endsWithL ['M', 'B'] cs = true)
    (hg : ¬ endsWithL ['G', 'B'] cs = true) (h : endsWithL ['B'] cs = true) :
    fromStrAux orig cs =
      match parseU64L (trimL (trimEndMatchesL ['B'] cs)) with
      | some n => .ok (ByteSize.fromBytes n)
      | none => .error .ParseInt := by
  unfold fromStrAux
  rw [if_neg hk, if_neg hm, if_neg hg, if_pos h]

theorem fromStrAux_unk (orig : String) (cs : List Char)
    (hk : ¬ endsWithL ['K', 'B'] cs = true) (hm : ¬ endsWithL ['M', 'B'] cs = true)
    (hg : ¬ endsWithL ['G', 'B'] cs = true) (hb : ¬ endsWithL ['B'] cs = true) :
    fromStrAux orig cs = .error (.UnkUnit orig) := by
  unfold fromStrAux
  rw [if_neg hk, if_neg hm, if_neg hg, if_neg hb]

/-- C2 counterexample: `"10XB"` ends with the bare `B` suffix, so the
code takes the integer branch and returns the integer-parse failure,
not `UnknownUnit` carrying the original string. -/
theorem parse_unknown_suffix_counterexample :
    ByteSize.fromStr "10XB" = .error .ParseInt
    ∧ ByteSize.fromStr "10XB" ≠ .error (.UnkUnit "10XB") :=
  ⟨by decide, by decide⟩

/-- C2 (amended): a string with no trailing `B` at all yields
`UnknownUnit` carrying the original string; a string ending in `B` but
not in `KB`, `MB` or `GB` whose numeric portion fails integer parsing
yields the integer-parse failure (in particular `"10XB"` does, not
`UnknownUnit`); a recognized `KB`/`MB`/`GB` suffix whose numeric
portion fails float parsing yields the float-parse failure. -/
theorem parse_error_taxonomy (s : String) :
    (¬ endsWithL ['B'] s.data = true →
      ByteSize.fromStr s = .error (.UnkUnit s))
    ∧ (endsWithL ['B'] s.data = true →
      ¬ endsWithL ['K', 'B'] s.data = true →
      ¬ endsWithL ['M', 'B'] s.data = true →
      ¬ endsWithL ['G', 'B'] s.data = true →
      parseU64L (trimL (trimEndMatchesL ['B'] s.data)) = none →
      ByteSize.fromStr s = .error .ParseInt)
    ∧ (endsWithL ['K', 'B'] s.data = true →
      parseF64L (trimL (trimEndMatchesL ['K', 'B'] s.data)) = none →
      ByteSize.fromStr s = .error .ParseFloat)
    ∧ (endsWithL ['M', 'B'] s.data = true →
      parseF64L (trimL (trimEndMatchesL ['M', 'B'] s.data)) = none →
      ByteSize.fromStr s = .error .ParseFloat)
    ∧ (endsWithL ['G', 'B'] s.data = true →
      parseF64L (trimL (trimEndMatchesL ['G', 'B'] s.data)) = none →
      ByteSize.fromStr s = .error .ParseFloat) := by
  refine ⟨?_, ?_, ?_, ?_, ?_⟩
  · intro hb
    exact fromStrAux_unk s s.data
      (not_endsWith_of_not_endsWithB ⟨['K'], rfl⟩ hb)
      (not_endsWith_of_not_endsWithB ⟨['M'], rfl⟩ hb)
      (not_endsWith_of_not_endsWithB ⟨['G'], rfl⟩ hb)
      hb
  · intro hb hk hm hg hp
    have h := fromStrAux_b s s.data hk hm hg hb
    rw [hp] at h
    exact h
  · intro hk hp
    have h := fromStrAux_kb s s.data hk
    rw [hp] at h
    exact h
  · intro hm hp
    have hk : ¬ endsWithL ['K', 'B'] s.data = true := by
      intro hb
      exact not_both_suffix2 (show 'K' ≠ 'M' by decide)
        (List.isSuffixOf_iff_suffix.mp hb) (List.isSuffixOf_iff_suffix.mp hm)
    have h := fromStrAux_mb s s.data hk hm
    rw [hp] at h
    exact h
  · intro hg hp
    have hk : ¬ endsWithL ['K', 'B'] s.data = true := by
      intro hb
      exact not_both_suffix2 (show 'K' ≠ 'G' by decide)
        (List.isSuffixOf_iff_suffix.mp hb) (List.isSuffixOf_iff_suffix.mp hg)
    have hm : ¬ endsWithL ['M', 'B'] s.data = true := by
      intro hb
      exact not_both_suffix2 (show 'M' ≠ 'G' by decide)
        (List.isSuffixOf_iff_suffix.mp hb) (List.isSuffixOf_iff_suffix.mp hg)
    have h := fromStrAux_gb s s.data hk hm hg
    rw [hp] at h
    exact h

/-- Witness for the amended C2: `"10XC"` has no trailing `B` and is an
unknown unit; `"abcKB"` has the `KB` suffix and a bad float. -/
theorem parse_error_taxonomy_witness :
    ByteSize.fromStr "10XC" = .error (.UnkUnit "10XC")
    ∧ ByteSize.fromStr "abcKB" = .error .ParseFloat :=
  ⟨(parse_error_taxonomy "10XC").1 (by decide),
   (parse_error_taxonomy "abcKB").2.2.1 (by decide) (by decide)⟩

/-- C5: the four representative strings parse to exactly the value the
matching constructor builds (`from_bytes(10)`, `from_kb_f64(10.9)`,
`from_mb_f64(10.1)`, `from_gb_f64(10.42)`), and re-rendering each
parsed value at 2-decimal compact precision parses back to a value
with the same byte count. -/
theorem parse_roundtrip_representatives :
    (ByteSize.fromStr "10B" = .ok (ByteSize.fromBytes 10)
      ∧ ByteSize.fromStr ((ByteSize.fromBytes 10).toStringWithPrec 2)
          = .ok (ByteSize.fromBytes 10))
    ∧ (ByteSize.fromStr "10.9KB" = .ok (ByteSize.fromKbF64 (.finite (Q.mk 109 10)))
      ∧ ByteSize.fromStr ((ByteSize.fromKbF64 (.finite (Q.mk 109 10))).toStringWithPrec 2)
          = .ok (ByteSize.fromKbF64 (.finite (Q.mk 109 10))))
    ∧ (ByteSize.fromStr "10.1MB" = .ok (ByteSize.fromMbF64 (.finite (Q.mk 101 10)))
      ∧ ByteSize.fromStr ((ByteSize.fromMbF64 (.finite (Q.mk 101 10))).toStringWithPrec 2)
          = .ok (ByteSize.fromMbF64 (.finite (Q.mk 101 10))))
    ∧ (ByteSize.fromStr "10.42GB" = .ok (ByteSize.fromGbF64 (.finite (Q.mk 1042 100)))
      ∧ ByteSize.fromStr ((ByteSize.fromGbF64 (.finite (Q.mk 1042 100))).toStringWithPrec 2)
          = .ok (ByteSize.fromGbF64 (.finite (Q.mk 1042 100)))) := by
  refine ⟨⟨?_, ?_⟩, ⟨?_, ?_⟩, ⟨?_, ?_⟩, ⟨?_, ?_⟩⟩ <;> decide

theorem normalize_twice (x : ByteSize) : x.normalize.normalize = x.normalize := by
  unfold ByteSize.normalize
  rw [inBytes_fromBytes]

/-- C8: both renderers first normalize exactly when the value expressed
in its own unit is below `1.0` and otherwise render the value as is;
the suffix is always one of `B`, `KB`, `MB`, `GB`, `TB`; and the
retagged `from_kb(1).into_tb()` renders as `"1KB"` at precision 2 (and
`"1.0KB"` under `Display`), not as a near-zero TB value. -/
theorem display_below_one_normalizes (x : ByteSize) :
    (x.inUnit < Q.one →
      x.displayStr = fmtFixed 1 x.normalize.inUnit ++ x.normalize.unitStr
      ∧ x.toStringWithPrec 2 = x.normalize.toStringWithPrec 2)
    ∧ (¬ x.inUnit < Q.one → x.displayStr = fmtFixed 1 x.inUnit ++ x.unitStr)
    ∧ (x.unitStr = "B" ∨ x.unitStr = "KB" ∨ x.unitStr = "MB"
        ∨ x.unitStr = "GB" ∨ x.unitStr = "TB")
    ∧ (ByteSize.fromKb 1).intoTb.toStringWithPrec 2 = "1KB"
    ∧ (ByteSize.fromKb 1).intoTb.displayStr = "1.0KB" := by
  refine ⟨?_, ?_, ?_, by decide, by decide⟩
  · intro h
    constructor
    · simp only [ByteSize.displayStr]
      rw [if_pos h]
    · simp only [ByteSize.toStringWithPrec]
      rw [if_pos h]
      have hrhs : (if x.normalize.inUnit < Q.one then x.normalize.normalize else x.normalize)
          = x.normalize := by
        split
        · exact normalize_twice x
        · rfl
      rw [hrhs]
  · intro h
    simp only [ByteSize.displayStr]
    rw [if_neg h]
  · rcases x with ⟨s⟩
    cases s <;> simp [ByteSize.unitStr]

/-- Witness for C8 at `from_kb(1).into_tb()`, whose `in_unit` is the
below-one value `1024 / 2 ^ 40`. -/
theorem display_below_one_normalizes_witness :
    (ByteSize.fromKb 1).intoTb.displayStr
        = fmtFixed 1 (ByteSize.fromKb 1).intoTb.normalize.inUnit
            ++ (ByteSize.fromKb 1).intoTb.normalize.unitStr
    ∧ (ByteSize.fromKb 1).intoTb.toStringWithPrec 2
        = (ByteSize.fromKb 1).intoTb.normalize.toStringWithPrec 2 :=
  (display_below_one_normalizes (ByteSize.fromKb 1).intoTb).1 (by decide)

/-- C10: a numeric portion followed by `k ≥ 2` repetitions of one
recognized suffix parses exactly like the single-suffix string, because
every trailing occurrence of the matched suffix is stripped before the
numeric portion is parsed. -/
theorem repeated_suffix_collapses (cs suf : List Char) (k : Nat)
    (hsuf : suf = ['K', 'B'] ∨ suf = ['M', 'B'] ∨ suf = ['G', 'B'] ∨ suf = ['B'])
    (hk : 2 ≤ k)
    (hcs : ∀ c ∈ cs, c.isDigit ∨ c = '.') :
    ByteSize.fromStr (String.mk (cs ++ repL suf k))
      = ByteSize.fromStr (String.mk (cs ++ suf)) := by
  rcases hsuf with rfl | rfl | rfl | rfl
  · have hL : endsWithL ['K', 'B'] (cs ++ repL ['K', 'B'] k) = true :=
      endsWith_append_repL _ cs k (by omega)
    have hR : endsWithL ['K', 'B'] (cs ++ ['K', 'B']) = true := endsWith_append_self _ cs
    show fromStrAux _ (cs ++ repL ['K', 'B'] k) = fromStrAux _ (cs ++ ['K', 'B'])
    rw [fromStrAux_kb _ _ hL, fromStrAux_kb _ _ hR,
      trimEnd_repL _ cs k (by simp), trimEnd_append _ cs (by simp)]
  · have hL : endsWithL ['M', 'B'] (cs ++ repL ['M', 'B'] k) = true :=
      endsWith_append_repL _ cs k (by omega)
    have hR : endsWithL ['M', 'B'] (cs ++ ['M', 'B']) = true := endsWith_append_self _ cs
    have hKL : ¬ endsWithL ['K', 'B'] (cs ++ repL ['M', 'B'] k) = true := by
      intro hb
      exact not_both_suffix2 (show 'K' ≠ 'M' by decide)
        (List.isSuffixOf_iff_suffix.mp hb) (List.isSuffixOf_iff_suffix.mp hL)
    have hKR : ¬ endsWithL ['K', 'B'] (cs ++ ['M', 'B']) = true := by
      intro hb
      exact not_both_suffix2 (show 'K' ≠ 'M' by decide)
        (List.isSuffixOf_iff_suffix.mp hb) (List.isSuffixOf_iff_suffix.mp hR)
    show fromStrAux _ (cs ++ repL ['M', 'B'] k) = fromStrAux _ (cs ++ ['M', 'B'])
    rw [fromStrAux_mb _ _ hKL hL, fromStrAux_mb _ _ hKR hR,
      trimEnd_repL _ cs k (by simp), trimEnd_append _ cs (by simp)]
  · have hL : endsWithL ['G', 'B'] (cs ++ repL ['G', 'B'] k) = true :=
      endsWith_append_repL _ cs k (by omega)
    have hR : endsWithL ['G', 'B'] (cs ++ ['G', 'B']) = true := endsWith_append_self _ cs
    have hKL : ¬ endsWithL ['K', 'B'] (cs ++ repL ['G', 'B'] k) = true := by
      intro hb
      exact not_both_suffix2 (show 'K' ≠ 'G' by decide)
        (List.isSuffixOf_iff_suffix.mp hb) (List.isSuffixOf_iff_suffix.mp hL)
    have hML : ¬ endsWithL ['M', 'B'] (cs ++ repL ['G', 'B'] k) = true := by
      intro hb
      exact not_both_suffix2 (show 'M' ≠ 'G' by decide)
        (List.isSuffixOf_iff_suffix.mp hb) (List.isSuffixOf_iff_suffix.mp hL)
    have hKR : ¬ endsWithL ['K', 'B'] (cs ++ ['G', 'B']) = true := by
      intro hb
      exact not_both_suffix2 (show 'K' ≠ 'G' by decide)
        (List.isSuffixOf_iff_suffix.mp hb) (List.isSuffixOf_iff_suffix.mp hR)
    have hMR : ¬ endsWithL ['M', 'B'] (cs ++ ['G', 'B']) = true := by
      intro hb
      exact not_both_suffix2 (show 'M' ≠ 'G' by decide)
        (List.isSuffixOf_iff_suffix.mp hb) (List.isSuffixOf_iff_suffix.mp hR)
    show fromStrAux _ (cs ++ repL ['G', 'B'] k) = fromStrAux _ (cs ++ ['G', 'B'])
    rw [fromStrAux_gb _ _ hKL hML hL, fromStrAux_gb _ _ hKR hMR hR,
      trimEnd_repL _ cs k (by simp), trimEnd_append _ cs (by simp)]
  · obtain ⟨j, rfl⟩ : ∃ j, k = j + 2 := ⟨k - 2, by omega⟩
    have hL : endsWithL ['B'] (cs ++ repL ['B'] (j + 2)) = true :=
      endsWith_append_repL _ cs (j + 2) (by omega)
    have hR : endsWithL ['B'] (cs ++ ['B']) = true := endsWith_append_self _ cs
    have hBB : ['B', 'B'] <:+ cs ++ repL ['B'] (j + 2) :=
      ⟨cs ++ repL ['B'] j, by simp [repL, List.append_assoc]⟩
    have hKL : ¬ endsWithL ['K', 'B'] (cs ++ repL ['B'] (j + 2)) = true := by
      intro hb
      exact not_both_suffix2 (show 'K' ≠ 'B' by decide)
        (List.isSuffixOf_iff_suffix.mp hb) hBB
    have hML : ¬ endsWithL ['M', 'B'] (cs ++ repL ['B'] (j + 2)) = true := by
      intro hb
      exact not_both_suffix2 (show 'M' ≠ 'B' by decide)
        (List.isSuffixOf_iff_suffix.mp hb) hBB
    have hGL : ¬ endsWithL ['G', 'B'] (cs ++ repL ['B'] (j + 2)) = true := by
      intro hb
      exact not_both_suffix2 (show 'G' ≠ 'B' by decide)
        (List.isSuffixOf_iff_suffix.mp hb) hBB
    have hKR : ¬ endsWithL ['K', 'B'] (cs ++ ['B']) = true := by
      intro hb
      have := mem_of_suffix2_append (List.isSuffixOf_iff_suffix.mp hb)
      rcases hcs _ this with hd | hd
      · exact absurd hd (by decide)
      · exact absurd hd (by decide)
    have hMR : ¬ endsWithL ['M', 'B'] (cs ++ ['B']) = true := by
      intro hb
      have := mem_of_suffix2_append (List.isSuffixOf_iff_suffix.mp hb)
      rcases hcs _ this with hd | hd
      · exact absurd hd (by decide)
      · exact absurd hd (by decide)
    have hGR : ¬ endsWithL ['G', 'B'] (cs ++ ['B']) = true := by
      intro hb
      have := mem_of_suffix2_append (List.isSuffixOf_iff_suffix.mp hb)
      rcases hcs _ this with hd | hd
      · exact absurd hd (by decide)
      · exact absurd hd (by decide)
    show fromStrAux _ (cs ++ repL ['B'] (j + 2)) = fromStrAux _ (cs ++ ['B'])
    rw [fromStrAux_b _ _ hKL hML hGL hL, fromStrAux_b _ _ hKR hMR hGR hR,
      trimEnd_repL _ cs (j + 2) (by simp), trimEnd_append _ cs (by simp)]

/-- Witness for C10: `"10KBKB"` parses like `"10KB"`, successfully, to
10240 bytes; `"10BB"` parses like `"10B"`. -/
theorem repeated_suffix_collapses_witness :
    ByteSize.fromStr (String.mk (['1', '0'] ++ repL ['K', 'B'] 2))
        = ByteSize.fromStr (String.mk (['1', '0'] ++ ['K', 'B']))
    ∧ ByteSize.fromStr "10KBKB" = .ok (ByteSize.fromBytes 10240)
    ∧ ByteSize.fromStr (String.mk (['1', '0'] ++ repL ['B'] 2))
        = ByteSize.fromStr (String.mk (['1', '0'] ++ ['B']))
    ∧ ByteSize.fromStr "10BB" = .ok (ByteSize.fromBytes 10) :=
  ⟨repeated_suffix_collapses ['1', '0'] ['K', 'B'] 2 (Or.inl rfl) (by omega) (by decide),
   by decide,
   repeated_suffix_collapses ['1', '0'] ['B'] 2 (Or.inr (Or.inr (Or.inr rfl))) (by omega)
     (by decide),
   by decide⟩

end Huby
